import Mathlib

/-!
Verification development for `check_signed.py`: a pipeline that extracts
product titles from markup, normalizes and filters them, persists JSON
snapshots, diffs against a previous snapshot and renders a report.

The embedding translates each Python function into a Lean definition of the
same name.  Strings are `String` (lists of characters); the external stdlib
collaborators (`html.unescape`, `html.parser`'s tokenizer, `json.dump`/
`json.load`) are modelled as executable Lean functions faithful to their
observable behaviour on the inputs this program feeds them, as noted at each
definition.
-/

/-- Whitespace as matched by the Python `\s` class on the ASCII range
(space, tab, newline, vertical tab, form feed, carriage return). -/
def pyIsSpace (c : Char) : Bool :=
  c = ' ' || c = '\t' || c = '\n' || c = Char.ofNat 11 || c = Char.ofNat 12 || c = '\r'

/-- Model of Python `str.casefold` (per-character lowering; coincides with
`casefold` on the ASCII strings this program compares). -/
def casefold (s : String) : String :=
  String.mk (s.data.map Char.toLower)

/-- Lexicographic comparison of character lists by code point, the order
underlying Python string comparison (used by `list.sort(key=str.casefold)`). -/
def lexLe : List Char → List Char → Bool
  | [], _ => true
  | _ :: _, [] => false
  | a :: as, b :: bs =>
    if a.toNat < b.toNat then true
    else if b.toNat < a.toNat then false
    else lexLe as bs

/-- The case-insensitive order on titles: compare case-folded forms. -/
def titleLe (a b : String) : Prop :=
  lexLe (casefold a).data (casefold b).data = true

instance : DecidableRel titleLe := fun a b => by
  unfold titleLe; infer_instance

/-- Model of `list.sort(key=str.casefold)`: a stable sort by the
case-insensitive order. -/
def sortTitles (l : List String) : List String :=
  List.insertionSort titleLe l

/-- Entity table: model of the stdlib `html.unescape` restricted to the five
predefined entities this development exercises (the full table is an external
collaborator; its longest-match semantics agrees with this model on these
entities, in particular `&amp;amp;` decodes to `&amp;`).  The restriction
under-approximates decodability — the real function also decodes the other
HTML5 named references and numeric ones — so no theorem may read a fixed
point of this model as a fixed point of the real function; where that
matters, the ampersand-free hypothesis is used instead, since every
reference the real function decodes starts with `&`. -/
def entityTable : List (List Char × Char) :=
  [("amp;".data, '&'), ("lt;".data, '<'), ("gt;".data, '>'),
   ("quot;".data, '"'), ("apos;".data, Char.ofNat 39)]

def matchEntity (cs : List Char) : Option (Char × List Char) :=
  (entityTable.find? (fun e => e.1.isPrefixOf cs)).map
    (fun e => (e.2, cs.drop e.1.length))

def unescapeAux : Nat → List Char → List Char
  | 0, l => l
  | _ + 1, [] => []
  | fuel + 1, c :: rest =>
    if c = '&' then
      match matchEntity rest with
      | some (d, rest2) => d :: unescapeAux fuel rest2
      | none => c :: unescapeAux fuel rest
    else c :: unescapeAux fuel rest

/-- Model of `html.unescape`: replace character entity references by their
literal characters, left to right, never rescanning the replacement. -/
def unescape (l : List Char) : List Char :=
  unescapeAux l.length l

/-- One pass of `WHITESPACE_RE.sub(" ", text)`: every maximal run of
whitespace becomes a single space.  The flag records whether we are inside a
run whose replacement space was already emitted. -/
def collapseAux : Bool → List Char → List Char
  | _, [] => []
  | inRun, c :: rest =>
    if pyIsSpace c then
      if inRun then collapseAux true rest else ' ' :: collapseAux true rest
    else c :: collapseAux false rest

def collapseWS (l : List Char) : List Char :=
  collapseAux false l

/-- Remove trailing whitespace (the right half of Python `str.strip`). -/
def rstripWS : List Char → List Char
  | [] => []
  | c :: rest =>
    let r := rstripWS rest
    if r.isEmpty then (if pyIsSpace c then [] else [c]) else c :: r

/-- Python `str.strip()`: drop leading and trailing whitespace. -/
def stripWS (l : List Char) : List Char :=
  rstripWS (l.dropWhile pyIsSpace)

/-- `normalize_title`: decode entities, collapse whitespace runs to single
spaces, strip. -/
def normalize_title (s : String) : String :=
  String.mk (stripWS (collapseWS (unescape s.data)))

/-- Word characters for the regex `\b` boundary (`\w`: alphanumeric or
underscore). -/
def isWordChar (c : Char) : Bool :=
  c.isAlphanum || c = '_'

/-- The configured signed-item keyword of `SIGNED_RE`, lowered. -/
def keyword : List Char := "elantris".data

/-- Case-insensitive match of `k` at the head of the input, returning the
remainder on success. -/
def matchLower : List Char → List Char → Option (List Char)
  | [], rest => some rest
  | _ :: _, [] => none
  | k :: ks, c :: cs => if c.toLower = k then matchLower ks cs else none

/-- Scan for a whole-word, case-insensitive occurrence of the keyword.
`prevWord` records whether the previous character was a word character
(so `\b` fails before the current position). -/
def signedSearchAux : Bool → List Char → Bool
  | _, [] => false
  | prevWord, c :: rest =>
    (!prevWord &&
      (match matchLower keyword (c :: rest) with
       | some after =>
         match after.head? with
         | none => true
         | some d => !isWordChar d
       | none => false))
    || signedSearchAux (isWordChar c) rest

/-- Model of `SIGNED_RE.search(title)`: `\bElantris\b`, case-insensitive. -/
def signedSearch (s : String) : Bool :=
  signedSearchAux false s.data

/-- The filter/dedupe loop of `extract_titles`: normalize each raw candidate,
drop empties and non-matches, keep the first occurrence per case-folded key
(`seen` is the set of keys already taken). -/
def dedupeFilter : List String → List String → List String
  | _, [] => []
  | seen, raw :: rest =>
    let title := normalize_title raw
    if title = "" then dedupeFilter seen rest
    else if !signedSearch title then dedupeFilter seen rest
    else if seen.contains (casefold title) then dedupeFilter seen rest
    else title :: dedupeFilter (casefold title :: seen) rest

/-- The Normalizer/Filter pipeline applied to a raw candidate list:
normalize, filter, dedupe, then sort case-insensitively. -/
def filterPipeline (candidates : List String) : List String :=
  sortTitles (dedupeFilter [] candidates)

/-- Characters admitted in tag/attribute names by the tokenizer model. -/
def isNameChar (c : Char) : Bool :=
  c.isAlphanum || c = '-' || c = '_' || c = ':' || c = '.'

/-- Model of the stdlib `html.parser` attribute scanner: read
`name`, `name=value`, `name="value"` or a single-quoted value, until the
closing `>`; attribute names are lowercased and attribute values have their
character references decoded (as `HTMLParser` does before reporting them).
Returns the attribute list and the remainder after the tag. -/
def parseAttrs : Nat → List Char → (List (String × Option String)) × List Char
  | 0, l => ([], l)
  | _ + 1, [] => ([], [])
  | fuel + 1, l =>
    match l.dropWhile pyIsSpace with
    | [] => ([], [])
    | '>' :: rest => ([], rest)
    | '/' :: rest => parseAttrs fuel rest
    | c :: rest =>
      if isNameChar c then
        let l1 := c :: rest
        let name := casefold (String.mk (l1.takeWhile isNameChar))
        let afterName := (l1.dropWhile isNameChar).dropWhile pyIsSpace
        match afterName with
        | '=' :: afterEq =>
          let v := afterEq.dropWhile pyIsSpace
          match v with
          | '"' :: vrest =>
            let value := vrest.takeWhile (fun d => d ≠ '"')
            let rem := (vrest.dropWhile (fun d => d ≠ '"')).drop 1
            let (attrs, fin) := parseAttrs fuel rem
            ((name, some (String.mk (unescape value))) :: attrs, fin)
          | q :: vrest =>
            if q = Char.ofNat 39 then
              let value := vrest.takeWhile (fun d => d ≠ Char.ofNat 39)
              let rem := (vrest.dropWhile (fun d => d ≠ Char.ofNat 39)).drop 1
              let (attrs, fin) := parseAttrs fuel rem
              ((name, some (String.mk (unescape value))) :: attrs, fin)
            else
              let value := v.takeWhile (fun d => !pyIsSpace d && d ≠ '>')
              let rem := v.dropWhile (fun d => !pyIsSpace d && d ≠ '>')
              let (attrs, fin) := parseAttrs fuel rem
              ((name, some (String.mk (unescape value))) :: attrs, fin)
          | [] => ([(name, some "")], [])
        | _ =>
          let (attrs, fin) := parseAttrs fuel afterName
          ((name, none) :: attrs, fin)
      else parseAttrs fuel rest

/-- Model of the stdlib `html.parser` tokenizer: emit every start tag with
its lowercased name and attribute list (the only events
`ProductTitleParser.handle_starttag` consumes). -/
def scanTags : Nat → List Char → List (String × List (String × Option String))
  | 0, _ => []
  | _ + 1, [] => []
  | fuel + 1, c :: rest =>
    if c = '<' then
      let name := rest.takeWhile (fun d => d.isAlpha)
      if name.isEmpty then scanTags fuel rest
      else
        let (attrs, rem) := parseAttrs (rest.length + 1) (rest.drop name.length)
        (casefold (String.mk name), attrs) :: scanTags fuel rem
    else scanTags fuel rest

/-- Lookup in `dict(attrs)`: later duplicates override earlier ones. -/
def attrGet (attrs : List (String × Option String)) (k : String) : Option String :=
  match attrs.reverse.find? (fun a => a.1 == k) with
  | some a => a.2
  | none => none

/-- `ProductTitleParser.handle_starttag`: from an `a` tag whose `href` begins
with `/products/` and whose `title` attribute is non-empty, emit the title.
A valueless attribute (Python value `None`) and an absent one are both falsy,
modelled by collapsing the `href` default to `""`. -/
def tagTitle (t : String × List (String × Option String)) : Option String :=
  if t.1 == "a" then
    let href := (attrGet t.2 "href").getD ""
    match attrGet t.2 "title" with
    | none => none
    | some ti =>
      if ti == "" || href == "" then none
      else if "/products/".data.isPrefixOf href.data then some ti else none
  else none

/-- `ProductTitleParser` run over a document: the raw candidate titles in
document order. -/
def parseTitles (html : String) : List String :=
  (scanTags (html.data.length + 1) html.data).filterMap tagTitle

/-- `extract_titles`: parse the markup, then normalize, filter, dedupe and
sort the candidates. -/
def extract_titles (html : String) : List String :=
  filterPipeline (parseTitles html)

/-- `diff_titles`: current titles whose case-folded form is new, and previous
titles whose case-folded form is gone, each sorted case-insensitively.  The
Python `set` of keys is modelled by a list queried with `contains`. -/
def diff_titles (previous current : List String) : List String × List String :=
  let previous_keys := previous.map casefold
  let current_keys := current.map casefold
  let added := current.filter (fun t => !previous_keys.contains (casefold t))
  let removed := previous.filter (fun t => !current_keys.contains (casefold t))
  (sortTitles added, sortTitles removed)

/-- The replacement table of `escape_markdown`, in source order: backslash
first, then asterisk, underscore, backtick, brackets. -/
def mdReplacements : List (Char × List Char) :=
  [('\\', ['\\', '\\']), ('*', ['\\', '*']), ('_', ['\\', '_']),
   (Char.ofNat 96, ['\\', Char.ofNat 96]), ('[', ['\\', '[']), (']', ['\\', ']'])]

/-- Python `text.replace(before, after)` for a single-character pattern. -/
def replaceChar (c : Char) (rep : List Char) : List Char → List Char
  | [] => []
  | a :: rest =>
    if a = c then rep ++ replaceChar c rep rest else a :: replaceChar c rep rest

/-- `escape_markdown`: apply the six replacements in the fixed source order. -/
def escape_markdown (s : String) : String :=
  String.mk (mdReplacements.foldl (fun text cr => replaceChar cr.1 cr.2 text) s.data)

/-- The line `format_issue_body` renders for one current title: bolded when
its case-folded form is among the case-folded added keys. -/
def currentLine (added_keys : List String) (title : String) : String :=
  let safe := escape_markdown title
  if added_keys.contains (casefold title) then "- **" ++ safe ++ "**"
  else "- " ++ safe

/-- `format_issue_body`: optional Added and Removed sections, then the
current titles with added ones bolded; join with newlines, strip trailing
whitespace, append one newline. -/
def format_issue_body (current added removed : List String) : String :=
  let addedLines : List String :=
    if added.isEmpty then []
    else "Added:" :: added.map (fun t => "- **" ++ escape_markdown t ++ "**") ++ [""]
  let removedLines : List String :=
    if removed.isEmpty then []
    else "Removed:" :: removed.map (fun t => "- " ++ escape_markdown t) ++ [""]
  let added_keys := added.map casefold
  let currentLines : List String :=
    "Current signed titles:" :: current.map (currentLine added_keys)
  let joined := String.intercalate "\n" (addedLines ++ removedLines ++ currentLines)
  String.mk (rstripWS joined.data) ++ "\n"

/-- `format_issue_title`: empty when nothing changed, a generic label for
more than one change, otherwise a label naming the single change. -/
def format_issue_title (added removed : List String) : String :=
  let total_changes := added.length + removed.length
  if total_changes = 0 then ""
  else if total_changes > 1 then "New signed book - multiple"
  else if !added.isEmpty then "New signed book - " ++ added.headD ""
  else "Removed signed book - " ++ removed.headD ""

/-- Values produced by parsing a JSON document (numbers are modelled as
integers, the only JSON numbers this program writes or reads back). -/
inductive Json where
  | null : Json
  | bool : Bool → Json
  | num : Int → Json
  | str : String → Json
  | arr : List Json → Json
  | obj : List (String × Json) → Json

def Json.isArr : Json → Bool
  | .arr _ => true
  | _ => false

def Json.isObj : Json → Bool
  | .obj _ => true
  | _ => false

/-- A single quote character, as used by Python `repr` of strings. -/
def singleQuote : String := String.mk [Char.ofNat 39]

mutual

/-- Python `repr` of a value decoded from JSON; strings are modelled with
plain single quotes. -/
def pyStrRepr : Json → String
  | .null => "None"
  | .bool true => "True"
  | .bool false => "False"
  | .num n => toString n
  | .str s => singleQuote ++ s ++ singleQuote
  | .arr xs => "[" ++ String.intercalate ", " (pyStrReprList xs) ++ "]"
  | .obj kvs => "\x7b" ++ String.intercalate ", " (pyStrReprKVs kvs) ++ "\x7d"

def pyStrReprList : List Json → List String
  | [] => []
  | x :: xs => pyStrRepr x :: pyStrReprList xs

def pyStrReprKVs : List (String × Json) → List String
  | [] => []
  | kv :: kvs => (singleQuote ++ kv.1 ++ singleQuote ++ ": " ++ pyStrRepr kv.2) :: pyStrReprKVs kvs

end

/-- Python `str()` of a value decoded from JSON: the string itself for
strings, the `repr` rendering otherwise. -/
def pyStr : Json → String
  | .str s => s
  | j => pyStrRepr j

/-- Lookup in a dict decoded from a JSON object (`data.get(key)` semantics;
on duplicate keys the later one wins, as in `json.load`). -/
def jsonGet (kvs : List (String × Json)) (k : String) : Option Json :=
  match kvs.reverse.find? (fun kv => kv.1 == k) with
  | some kv => some kv.2
  | none => none

/-- Errors `load_titles` can raise: `json.JSONDecodeError` on malformed
JSON (the spec's `MalformedSnapshotError`), and the `AttributeError` from
calling `.get` on a non-dict. -/
inductive LoadErr where
  | malformedSnapshot : LoadErr
  | attributeError : LoadErr
deriving DecidableEq

/-- A file system at parse level: `none` is a missing file, `some (.error ())`
a file whose contents are not valid JSON, `some (.ok j)` a file whose
contents parse (via the stdlib `json` module, an external collaborator) to
`j`. -/
def FS : Type := String → Option (Except Unit Json)

/-- `write_json`: serialize the payload to the path, creating directories and
overwriting unconditionally; the stored bytes parse back to the payload
(stdlib `json.dump`/`json.load` round-trip modelled at value level). -/
def write_json (fs : FS) (path : String) (payload : Json) : FS :=
  fun p => if p == path then some (.ok payload) else fs p

/-- `load_titles`: missing file gives `[]`; malformed JSON raises; a decoded
dict gives `data.get("titles", [])` kept only when a list and coerced with
`str`; `.get` on a non-dict raises `AttributeError`. -/
def load_titles (fs : FS) (path : String) : Except LoadErr (List String) :=
  match fs path with
  | none => .ok []
  | some (.error _) => .error .malformedSnapshot
  | some (.ok data) =>
    match data with
    | .obj kvs =>
      match jsonGet kvs "titles" with
      | none => .ok []
      | some (.arr xs) => .ok (xs.map pyStr)
      | some _ => .ok []
    | _ => .error .attributeError

def SOURCE_URL : String := "https://www.dragonsteelbooks.com/search?q=signed"

/-- The snapshot payload `main` builds, in source key order. -/
def snapshotPayload (timestamp url : String) (titles : List String) : Json :=
  .obj [("timestamp", .str timestamp), ("source_url", .str url),
        ("titles", .arr (titles.map .str))]

/-- Command-line arguments after `argparse` (each `None` or a path). -/
structure Args where
  output : Option String
  outputDir : Option String
  latest : Option String
  previous : Option String
  diff : Option String
  issueBody : Option String
  issueTitle : Option String

/-- The observable outcome of a run of `main`: the exit code, the JSON files
written (path and payload, in write order), the text files written, and the
lines printed to the diagnostic stream. -/
structure RunResult where
  exitCode : Nat
  jsonWrites : List (String × Json)
  textWrites : List (String × String)
  stderrLines : List String

def noTitlesWarning : String :=
  "No signed titles found; refusing to write empty snapshot."

/-- The `main` entry point, with the external inputs made explicit: the
fetched markup, the two timestamp renderings of `now`, and the file system
the previous snapshot is read from.  A raised error propagates as
`.error`. -/
def CheckSigned.main (args : Args) (html timestamp fileTimestamp : String)
    (fs : FS) : Except LoadErr RunResult :=
  let titles := extract_titles html
  if titles.isEmpty then .ok ⟨2, [], [], [noTitlesWarning]⟩
  else
    let payload := snapshotPayload timestamp SOURCE_URL titles
    let output_path :=
      match args.outputDir with
      | some d => d ++ "/" ++ fileTimestamp ++ ".json"
      | none => args.output.getD ""
    let w1 := [(output_path, payload)]
    let w2 := match args.latest with
      | some p => [(p, payload)]
      | none => []
    match (match args.previous with
           | some p => load_titles fs p
           | none => .ok []) with
    | .error e => .error e
    | .ok previous_titles =>
      if args.diff.isSome || args.issueBody.isSome || args.issueTitle.isSome then
        let (added, removed) := diff_titles previous_titles titles
        let diffPayload : Json :=
          .obj [("timestamp", .str timestamp), ("added", .arr (added.map .str)),
                ("removed", .arr (removed.map .str)),
                ("current", .arr (titles.map .str)),
                ("previous", .arr (previous_titles.map .str))]
        let w3 := match args.diff with
          | some p => [(p, diffPayload)]
          | none => []
        let twb := match args.issueBody with
          | some p => [(p, format_issue_body titles added removed)]
          | none => []
        let twt := match args.issueTitle with
          | some p => [(p, format_issue_title added removed ++ "\n")]
          | none => []
        .ok ⟨0, w1 ++ w2 ++ w3, twb ++ twt, []⟩
      else .ok ⟨0, w1 ++ w2, [], []⟩

/-- A file holding the valid JSON document `[]`: not malformed, but its top
level is not an object, so it has no `titles` field. -/
def fsNonObject : FS :=
  fun p => if p == "prev.json" then some (.ok (Json.arr [])) else none

/-- A file system exercising every branch of `load_titles`. -/
def fsDemo : FS := fun p =>
  if p == "bad.json" then some (.error ())
  else if p == "notitles.json" then some (.ok (.obj [("other", .num 1)]))
  else if p == "nolist.json" then some (.ok (.obj [("titles", .str "x")]))
  else if p == "good.json" then
    some (.ok (.obj [("titles", .arr [.str "A", .num (-3), .null])]))
  else if p == "arr.json" then some (.ok (.arr []))
  else none

/-- The six markdown-special characters escaped by `escape_markdown`. -/
def mdSpecialChars : List Char := ['\\', '*', '_', Char.ofNat 96, '[', ']']

/-- Per-character specification of the escaping: backslash-prefix exactly the
six special characters, leave every other character unchanged. -/
def escChar (c : Char) : List Char :=
  if c ∈ mdSpecialChars then ['\\', c] else [c]

/-- `applyAll` is the replacement loop of `escape_markdown` as a function of
the table. -/
def applyAll (rs : List (Char × List Char)) (l : List Char) : List Char :=
  rs.foldl (fun text cr => replaceChar cr.1 cr.2 text) l

/-- Every whitespace character of the list is a plain space. -/
def onlyPlainSpace : List Char → Bool
  | [] => true
  | c :: rest => (!pyIsSpace c || c == ' ') && onlyPlainSpace rest

/-- No two adjacent whitespace characters. -/
def noDoubleSpace : List Char → Bool
  | [] => true
  | c :: rest =>
    (match rest.head? with
     | some d => !(pyIsSpace c && pyIsSpace d)
     | none => true) && noDoubleSpace rest

/-- The first character, when present, is not whitespace. -/
def headNotSpace (l : List Char) : Bool :=
  match l.head? with
  | some c => !pyIsSpace c
  | none => true

/-- The last character, when present, is not whitespace. -/
def lastNotSpace (l : List Char) : Bool :=
  match l.getLast? with
  | some c => !pyIsSpace c
  | none => true

/-- The whitespace half of `normalize_title`: collapse runs, then strip. -/
def wsNormalize (l : List Char) : List Char :=
  stripWS (collapseWS l)

/-- The normalized candidates that survive the empty and keyword filters, in
document order (the dedupe step not yet applied). -/
def candNorms (l : List String) : List String :=
  (l.map normalize_title).filter (fun t => !(t == "") && signedSearch t)

/-- Specification-level first-seen dedupe: keep each title and drop every
later candidate with the same case-folded key. -/
def firstSeen : List String → List String
  | [] => []
  | t :: rest => t :: firstSeen (rest.filter (fun u => !(casefold u == casefold t)))
termination_by l => l.length
decreasing_by
  simp only [List.length_cons]
  exact Nat.lt_succ_of_le (List.length_filter_le _ _)

/-!  ## Theorems  -/

theorem lexLe_total : ∀ a b : List Char, lexLe a b = true ∨ lexLe b a = true
  | [], _ => Or.inl rfl
  | _ :: _, [] => Or.inr rfl
  | a :: as, b :: bs => by
    simp only [lexLe]
    rcases Nat.lt_trichotomy a.toNat b.toNat with h | h | h
    · left; simp [h]
    · have h1 : ¬ a.toNat < b.toNat := by omega
      have h2 : ¬ b.toNat < a.toNat := by omega
      rcases lexLe_total as bs with ih | ih
      · left; simp [h1, h2, ih]
      · right; simp [h1, h2, ih]
    · right; simp [h]

theorem lexLe_trans : ∀ a b c : List Char,
    lexLe a b = true → lexLe b c = true → lexLe a c = true
  | [], _, _, _, _ => rfl
  | _ :: _, [], _, h1, _ => by simp [lexLe] at h1
  | _ :: _, _ :: _, [], _, h2 => by simp [lexLe] at h2
  | a :: as, b :: bs, c :: cs, h1, h2 => by
    simp only [lexLe] at h1 h2 ⊢
    rcases Nat.lt_trichotomy a.toNat b.toNat with hab | hab | hab <;>
      rcases Nat.lt_trichotomy b.toNat c.toNat with hbc | hbc | hbc
    · simp [Nat.lt_trans hab hbc]
    · simp [hbc ▸ hab]
    · simp only [if_neg (by omega : ¬ b.toNat < c.toNat),
        if_pos (by omega : c.toNat < b.toNat)] at h2
      exact absurd h2 (by simp)
    · simp [hab ▸ hbc]
    · have hac : a.toNat = c.toNat := hab.trans hbc
      simp only [if_neg (by omega : ¬ a.toNat < b.toNat),
        if_neg (by omega : ¬ b.toNat < a.toNat)] at h1
      simp only [if_neg (by omega : ¬ b.toNat < c.toNat),
        if_neg (by omega : ¬ c.toNat < b.toNat)] at h2
      simp only [if_neg (by omega : ¬ a.toNat < c.toNat),
        if_neg (by omega : ¬ c.toNat < a.toNat)]
      exact lexLe_trans as bs cs h1 h2
    · simp only [if_neg (by omega : ¬ b.toNat < c.toNat),
        if_pos (by omega : c.toNat < b.toNat)] at h2
      exact absurd h2 (by simp)
    · simp only [if_neg (by omega : ¬ a.toNat < b.toNat),
        if_pos (by omega : b.toNat < a.toNat)] at h1
      exact absurd h1 (by simp)
    · simp only [if_neg (by omega : ¬ a.toNat < b.toNat),
        if_pos (by omega : b.toNat < a.toNat)] at h1
      exact absurd h1 (by simp)
    · simp only [if_neg (by omega : ¬ a.toNat < b.toNat),
        if_pos (by omega : b.toNat < a.toNat)] at h1
      exact absurd h1 (by simp)

instance : IsTotal String titleLe :=
  ⟨fun x y => lexLe_total (casefold x).data (casefold y).data⟩

instance : IsTrans String titleLe :=
  ⟨fun _ _ _ h1 h2 => lexLe_trans _ _ _ h1 h2⟩


theorem contains_mem_iff {l : List String} {a : String} :
    l.contains a = true ↔ a ∈ l :=
  List.elem_iff

/-- Claim C5: `format_issue_title` returns the empty string exactly when both
lists are empty, the fixed multi-change label when the combined count exceeds
one, and a label naming the single added (resp. removed) title when there is
exactly one change. -/
theorem format_issue_title_cases (added removed : List String) :
    (format_issue_title added removed = "" ↔ added = [] ∧ removed = []) ∧
    (added.length + removed.length > 1 →
      format_issue_title added removed = "New signed book - multiple") ∧
    (∀ t, added = [t] → removed = [] →
      format_issue_title added removed = "New signed book - " ++ t) ∧
    (∀ t, removed = [t] → added = [] →
      format_issue_title added removed = "Removed signed book - " ++ t) := by
  refine ⟨⟨?_, ?_⟩, ?_, ?_, ?_⟩
  · intro h
    unfold format_issue_title at h
    by_cases h0 : added.length + removed.length = 0
    · constructor
      · exact List.eq_nil_of_length_eq_zero (by omega)
      · exact List.eq_nil_of_length_eq_zero (by omega)
    · exfalso
      rw [if_neg h0] at h
      by_cases h1 : added.length + removed.length > 1
      · rw [if_pos h1] at h; simp at h
      · rw [if_neg h1] at h
        by_cases h2 : added.isEmpty
        · rw [if_neg (by simp [h2])] at h
          have := congrArg String.data h
          simp [String.data_append] at this
        · rw [if_pos (by simp [h2])] at h
          have := congrArg String.data h
          simp [String.data_append] at this
  · rintro ⟨rfl, rfl⟩; rfl
  · intro h
    unfold format_issue_title
    rw [if_neg (by omega), if_pos h]
  · rintro t rfl rfl; rfl
  · rintro t rfl rfl; rfl

theorem format_issue_title_cases_witness :
    (format_issue_title [] [] = "" ↔ ([] : List String) = [] ∧ ([] : List String) = []) ∧
    format_issue_title ["A"] ["B"] = "New signed book - multiple" ∧
    format_issue_title ["A"] [] = "New signed book - A" ∧
    format_issue_title [] ["B"] = "Removed signed book - B" :=
  ⟨(format_issue_title_cases [] []).1,
   (format_issue_title_cases ["A"] ["B"]).2.1 (by decide),
   (format_issue_title_cases ["A"] []).2.2.1 "A" rfl rfl,
   (format_issue_title_cases [] ["B"]).2.2.2 "B" rfl rfl⟩

/-- Claim C9: diffing a title list against itself yields empty added and
removed lists. -/
theorem diff_titles_self (A : List String) : diff_titles A A = ([], []) := by
  have h : A.filter (fun t => !(A.map casefold).contains (casefold t)) = [] := by
    rw [List.filter_eq_nil_iff]
    intro t ht
    simp
    exact ⟨t, ht, rfl⟩
  have hd : diff_titles A A =
      (sortTitles (A.filter fun t => !(A.map casefold).contains (casefold t)),
       sortTitles (A.filter fun t => !(A.map casefold).contains (casefold t))) := rfl
  rw [hd, h]
  rfl

/-- Claim C6: when extraction yields zero matching titles, the run writes no
files, prints the warning to the diagnostic stream, and exits with code 2. -/
theorem main_no_titles (args : Args) (html timestamp fileTimestamp : String)
    (fs : FS) (h : extract_titles html = []) :
    CheckSigned.main args html timestamp fileTimestamp fs =
      .ok ⟨2, [], [], [noTitlesWarning]⟩ := by
  unfold CheckSigned.main
  rw [h]
  rfl

theorem main_no_titles_witness :
    extract_titles "<p>nothing here</p>" = [] ∧
    CheckSigned.main ⟨some "out.json", none, some "latest.json", some "prev.json",
        some "diff.json", some "body.md", some "title.txt"⟩
      "<p>nothing here</p>" "t" "f" (fun _ => some (.error ())) =
      .ok ⟨2, [], [], [noTitlesWarning]⟩ :=
  ⟨rfl, main_no_titles _ _ "t" "f" _ rfl⟩

/-- Claim C2 counterexample: on a file containing valid JSON whose `titles`
field is missing (the document `[]`, which is not an object), `load_titles`
raises an `AttributeError` instead of returning the empty title list, so
malformed JSON is not the only error. -/
theorem load_titles_nonobject_errs :
    fsNonObject "prev.json" = some (.ok (Json.arr [])) ∧
    load_titles fsNonObject "prev.json" = .error .attributeError ∧
    load_titles fsNonObject "prev.json" ≠ .ok [] := by
  refine ⟨rfl, rfl, ?_⟩
  intro hcon
  exact Except.noConfusion hcon

/-- Claim C2 (amended): `load_titles` returns an empty title list on a
missing file and on a valid JSON object whose `titles` field is missing or
not a list; malformed JSON raises the malformed-snapshot error; valid JSON
whose top level is not an object raises an attribute error; a present
`titles` list is returned with every element coerced to text form. -/
theorem load_titles_cases (fs : FS) (path : String) :
    (fs path = none → load_titles fs path = .ok []) ∧
    (∀ e, fs path = some (.error e) →
      load_titles fs path = .error .malformedSnapshot) ∧
    (∀ kvs, fs path = some (.ok (.obj kvs)) → jsonGet kvs "titles" = none →
      load_titles fs path = .ok []) ∧
    (∀ kvs j, fs path = some (.ok (.obj kvs)) → jsonGet kvs "titles" = some j →
      j.isArr = false → load_titles fs path = .ok []) ∧
    (∀ kvs xs, fs path = some (.ok (.obj kvs)) →
      jsonGet kvs "titles" = some (.arr xs) →
      load_titles fs path = .ok (xs.map pyStr)) ∧
    (∀ j, fs path = some (.ok j) → j.isObj = false →
      load_titles fs path = .error .attributeError) := by
  refine ⟨?_, ?_, ?_, ?_, ?_, ?_⟩
  · intro h; unfold load_titles; rw [h]
  · intro e h; unfold load_titles; rw [h]
  · intro kvs h1 h2; simp only [load_titles, h1, h2]
  · intro kvs j h1 h2 h3
    cases j with
    | arr xs => simp [Json.isArr] at h3
    | null => simp only [load_titles, h1, h2]
    | bool b => simp only [load_titles, h1, h2]
    | num n => simp only [load_titles, h1, h2]
    | str s => simp only [load_titles, h1, h2]
    | obj o => simp only [load_titles, h1, h2]
  · intro kvs xs h1 h2; simp only [load_titles, h1, h2]
  · intro j h1 h2
    cases j with
    | obj o => simp [Json.isObj] at h2
    | null => simp only [load_titles, h1]
    | bool b => simp only [load_titles, h1]
    | num n => simp only [load_titles, h1]
    | str s => simp only [load_titles, h1]
    | arr xs => simp only [load_titles, h1]

theorem load_titles_cases_witness :
    load_titles fsDemo "missing.json" = .ok [] ∧
    load_titles fsDemo "bad.json" = .error .malformedSnapshot ∧
    load_titles fsDemo "notitles.json" = .ok [] ∧
    load_titles fsDemo "nolist.json" = .ok [] ∧
    load_titles fsDemo "good.json" = .ok ["A", "-3", "None"] ∧
    load_titles fsDemo "arr.json" = .error .attributeError :=
  ⟨(load_titles_cases fsDemo "missing.json").1 rfl,
   (load_titles_cases fsDemo "bad.json").2.1 () rfl,
   (load_titles_cases fsDemo "notitles.json").2.2.1 _ rfl rfl,
   (load_titles_cases fsDemo "nolist.json").2.2.2.1 _ (.str "x") rfl rfl rfl,
   (load_titles_cases fsDemo "good.json").2.2.2.2.1
     [("titles", Json.arr [Json.str "A", Json.num (-3), Json.null])]
     [Json.str "A", Json.num (-3), Json.null] rfl rfl,
   (load_titles_cases fsDemo "arr.json").2.2.2.2.2 (.arr []) rfl rfl⟩

/-- Claim C8: writing a snapshot whose `titles` field is a list of strings
and loading the same path back yields the identical title list, order and
casing preserved. -/
theorem write_then_load_round_trip (fs : FS) (path timestamp url : String)
    (titles : List String) :
    load_titles (write_json fs path (snapshotPayload timestamp url titles))
      path = .ok titles := by
  unfold load_titles write_json snapshotPayload
  rw [if_pos (beq_self_eq_true path)]
  show Except.ok ((titles.map Json.str).map pyStr) = Except.ok titles
  rw [List.map_map]
  exact congrArg Except.ok (List.map_id'' (fun _ => rfl) titles)

theorem replaceChar_append (c : Char) (rep : List Char) :
    ∀ l1 l2 : List Char,
      replaceChar c rep (l1 ++ l2) = replaceChar c rep l1 ++ replaceChar c rep l2
  | [], _ => rfl
  | a :: t, l2 => by
    simp only [List.cons_append, List.append_eq, replaceChar]
    by_cases h : a = c
    · rw [if_pos h, if_pos h, replaceChar_append c rep t l2, List.append_assoc]
    · rw [if_neg h, if_neg h, replaceChar_append c rep t l2, List.cons_append]

theorem applyAll_append :
    ∀ (rs : List (Char × List Char)) (l1 l2 : List Char),
      applyAll rs (l1 ++ l2) = applyAll rs l1 ++ applyAll rs l2
  | [], _, _ => rfl
  | cr :: rs, l1, l2 => by
    simp only [applyAll, List.foldl_cons]
    rw [replaceChar_append]
    exact applyAll_append rs _ _

theorem escape_single (a : Char) : applyAll mdReplacements [a] = escChar a := by
  by_cases h : a ∈ mdSpecialChars
  · simp only [mdSpecialChars, List.mem_cons, List.not_mem_nil, or_false] at h
    rcases h with rfl | rfl | rfl | rfl | rfl | rfl <;> decide
  · simp only [mdSpecialChars, List.mem_cons, List.not_mem_nil, or_false,
      not_or] at h
    obtain ⟨h1, h2, h3, h4, h5, h6⟩ := h
    simp [applyAll, mdReplacements, replaceChar, escChar, mdSpecialChars,
      h1, h2, h3, h4, h5, h6]

theorem applyAll_replacements (l : List Char) :
    applyAll mdReplacements l = l.flatMap escChar := by
  induction l with
  | nil => rfl
  | cons a t ih =>
    calc applyAll mdReplacements (a :: t)
        = applyAll mdReplacements ([a] ++ t) := rfl
      _ = applyAll mdReplacements [a] ++ applyAll mdReplacements t :=
          applyAll_append _ _ _
      _ = escChar a ++ t.flatMap escChar := by rw [escape_single, ih]
      _ = (a :: t).flatMap escChar := (List.flatMap_cons a t escChar).symm

set_option maxRecDepth 4000 in
/-- Claim C7: `escape_markdown` backslash-prefixes exactly the characters
`\\ * _ `` ` `` [ ]` and no others, with backslash escaped first so existing
backslashes are doubled before new ones appear; consequently a title with
`*` and `_` is rendered in the issue body with both escaped. -/
theorem escape_markdown_spec :
    (∀ s : String, escape_markdown s = String.mk (s.data.flatMap escChar)) ∧
    escape_markdown "a\\*b" = "a\\\\\\*b" ∧
    format_issue_body ["Our *Elantris* _signed_"] [] [] =
      "Current signed titles:\n- Our \\*Elantris\\* \\_signed\\_\n" := by
  refine ⟨?_, by decide, by decide⟩
  intro s
  unfold escape_markdown
  exact congrArg String.mk (applyAll_replacements s.data)

set_option maxRecDepth 4000 in
/-- Claim C10: in the "Current signed titles:" section a title is bolded
exactly when its case-folded form equals the case-folded form of some added
entry, so membership is case-insensitive; the closed instance shows a current
title bolded although its casing differs from the added entry. -/
theorem currentLine_bold_iff (added : List String) (title : String) :
    currentLine (added.map casefold) title =
      (if ∃ a ∈ added, casefold a = casefold title
       then "- **" ++ escape_markdown title ++ "**"
       else "- " ++ escape_markdown title) ∧
    format_issue_body ["FOO Elantris"] ["foo elantris"] [] =
      "Added:\n- **foo elantris**\n\nCurrent signed titles:\n- **FOO Elantris**\n" := by
  constructor
  · simp only [currentLine]
    by_cases h : ∃ a ∈ added, casefold a = casefold title
    · rw [if_pos h, if_pos]
      obtain ⟨a, ha, he⟩ := h
      exact contains_mem_iff.mpr (List.mem_map.mpr ⟨a, ha, he⟩)
    · rw [if_neg h, if_neg]
      intro hc
      obtain ⟨a, ha, he⟩ := List.mem_map.mp (contains_mem_iff.mp hc)
      exact h ⟨a, ha, he⟩
  · decide

theorem sortTitles_filter_spec (keys l : List String) :
    (sortTitles (l.filter (fun t => !keys.contains (casefold t)))).Perm
      (l.filter (fun t => !keys.contains (casefold t))) ∧
    (∀ t, t ∈ sortTitles (l.filter (fun t => !keys.contains (casefold t))) ↔
      t ∈ l ∧ ¬ casefold t ∈ keys) ∧
    List.Sorted titleLe
      (sortTitles (l.filter (fun t => !keys.contains (casefold t)))) := by
  refine ⟨List.perm_insertionSort _ _, ?_, List.sorted_insertionSort titleLe _⟩
  intro t
  constructor
  · intro ht
    have hf := List.mem_filter.mp ((List.mem_insertionSort _).mp ht)
    refine ⟨hf.1, ?_⟩
    intro hmem
    have := hf.2
    simp at this
    exact this hmem
  · rintro ⟨hmem, hnot⟩
    apply (List.mem_insertionSort _).mpr
    apply List.mem_filter.mpr
    refine ⟨hmem, ?_⟩
    simp
    exact hnot

/-- Claim C4: `diff_titles` returns exactly the current titles whose
case-folded form is absent from the case-folded previous titles (casing
preserved, sorted case-insensitively) as `added`, and symmetrically the
previous titles absent from the current set as `removed`; it is total and
empty inputs yield empty outputs. -/
theorem diff_titles_spec (previous current : List String) :
    ((diff_titles previous current).1.Perm
      (current.filter (fun t => !(previous.map casefold).contains (casefold t)))) ∧
    (∀ t, t ∈ (diff_titles previous current).1 ↔
      t ∈ current ∧ ¬ casefold t ∈ previous.map casefold) ∧
    List.Sorted titleLe (diff_titles previous current).1 ∧
    ((diff_titles previous current).2.Perm
      (previous.filter (fun t => !(current.map casefold).contains (casefold t)))) ∧
    (∀ t, t ∈ (diff_titles previous current).2 ↔
      t ∈ previous ∧ ¬ casefold t ∈ current.map casefold) ∧
    List.Sorted titleLe (diff_titles previous current).2 ∧
    diff_titles [] [] = ([], []) := by
  have ha := sortTitles_filter_spec (previous.map casefold) current
  have hr := sortTitles_filter_spec (current.map casefold) previous
  exact ⟨ha.1, ha.2.1, ha.2.2, hr.1, hr.2.1, hr.2.2, rfl⟩

theorem noDoubleSpace_tail {c : Char} {rest : List Char}
    (h : noDoubleSpace (c :: rest) = true) : noDoubleSpace rest = true := by
  unfold noDoubleSpace at h
  exact Bool.and_elim_right h

theorem collapse_only_plain (l : List Char) :
    ∀ b, onlyPlainSpace (collapseAux b l) = true := by
  induction l with
  | nil => intro b; rfl
  | cons c rest ih =>
    intro b
    by_cases hc : pyIsSpace c = true
    · cases b
      · show onlyPlainSpace (if pyIsSpace c then ' ' :: collapseAux true rest
          else c :: collapseAux false rest) = true
        rw [if_pos hc]
        unfold onlyPlainSpace
        rw [ih true]
        decide
      · show onlyPlainSpace (if pyIsSpace c then collapseAux true rest
          else c :: collapseAux false rest) = true
        rw [if_pos hc]
        exact ih true
    · have hbranch : collapseAux b (c :: rest) = c :: collapseAux false rest := by
        cases b <;> simp [collapseAux, hc]
      rw [hbranch]
      unfold onlyPlainSpace
      rw [ih false]
      simp [hc]

theorem collapse_true_head (l : List Char) :
    headNotSpace (collapseAux true l) = true := by
  induction l with
  | nil => rfl
  | cons c rest ih =>
    by_cases hc : pyIsSpace c = true
    · show headNotSpace (if pyIsSpace c then collapseAux true rest
        else c :: collapseAux false rest) = true
      rw [if_pos hc]
      exact ih
    · show headNotSpace (if pyIsSpace c then collapseAux true rest
        else c :: collapseAux false rest) = true
      rw [if_neg hc]
      unfold headNotSpace
      simp [hc]

theorem collapse_noDouble (l : List Char) :
    noDoubleSpace (collapseAux true l) = true ∧
    noDoubleSpace (collapseAux false l) = true := by
  induction l with
  | nil => exact ⟨rfl, rfl⟩
  | cons c rest ih =>
    by_cases hc : pyIsSpace c = true
    · constructor
      · show noDoubleSpace (if pyIsSpace c then collapseAux true rest
          else c :: collapseAux false rest) = true
        rw [if_pos hc]
        exact ih.1
      · show noDoubleSpace (if pyIsSpace c then ' ' :: collapseAux true rest
          else c :: collapseAux false rest) = true
        rw [if_pos hc]
        unfold noDoubleSpace
        rw [ih.1, Bool.and_true]
        have hh := collapse_true_head rest
        unfold headNotSpace at hh
        cases hd : (collapseAux true rest).head? with
        | none => simp
        | some d =>
          rw [hd] at hh
          have hh2 : pyIsSpace d = false := by simpa using hh
          simp [hh2]
    · have hbranch : ∀ b, collapseAux b (c :: rest) = c :: collapseAux false rest := by
        intro b; cases b <;> simp [collapseAux, hc]
      constructor <;> rw [hbranch]
      all_goals
        unfold noDoubleSpace
        rw [ih.2, Bool.and_true]
        cases hd : (collapseAux false rest).head? with
        | none => simp
        | some d => simp [hc]

theorem dropWhile_headNotSpace (l : List Char) :
    headNotSpace (l.dropWhile pyIsSpace) = true := by
  induction l with
  | nil => rfl
  | cons c rest ih =>
    rw [List.dropWhile_cons]
    by_cases hc : pyIsSpace c = true
    · rw [if_pos hc]; exact ih
    · rw [if_neg hc]
      unfold headNotSpace
      simp [hc]

theorem onlyPlain_dropWhile {l : List Char} (h : onlyPlainSpace l = true) :
    onlyPlainSpace (l.dropWhile pyIsSpace) = true := by
  induction l with
  | nil => exact h
  | cons c rest ih =>
    unfold onlyPlainSpace at h
    rw [List.dropWhile_cons]
    by_cases hc : pyIsSpace c = true
    · rw [if_pos hc]; exact ih (Bool.and_elim_right h)
    · rw [if_neg hc]
      unfold onlyPlainSpace
      exact h

theorem noDouble_dropWhile {l : List Char} (h : noDoubleSpace l = true) :
    noDoubleSpace (l.dropWhile pyIsSpace) = true := by
  induction l with
  | nil => exact h
  | cons c rest ih =>
    rw [List.dropWhile_cons]
    by_cases hc : pyIsSpace c = true
    · rw [if_pos hc]; exact ih (noDoubleSpace_tail h)
    · rw [if_neg hc]; exact h

theorem dropWhile_fix {l : List Char} (h : headNotSpace l = true) :
    l.dropWhile pyIsSpace = l := by
  cases l with
  | nil => rfl
  | cons c rest =>
    unfold headNotSpace at h
    simp only [List.head?_cons] at h
    rw [List.dropWhile_cons, if_neg (by simpa using h)]

theorem rstrip_eq (c : Char) (rest : List Char) :
    rstripWS (c :: rest) =
      if (rstripWS rest).isEmpty then (if pyIsSpace c then [] else [c])
      else c :: rstripWS rest := rfl

theorem rstrip_head (l : List Char) :
    rstripWS l = [] ∨ (rstripWS l).head? = l.head? := by
  cases l with
  | nil => exact Or.inl rfl
  | cons c rest =>
    rw [rstrip_eq]
    by_cases he : (rstripWS rest).isEmpty = true
    · rw [if_pos he]
      by_cases hc : pyIsSpace c = true
      · rw [if_pos hc]; exact Or.inl rfl
      · rw [if_neg hc]; exact Or.inr rfl
    · rw [if_neg he]; exact Or.inr rfl

theorem rstrip_onlyPlain {l : List Char} (h : onlyPlainSpace l = true) :
    onlyPlainSpace (rstripWS l) = true := by
  induction l with
  | nil => exact h
  | cons c rest ih =>
    unfold onlyPlainSpace at h
    rw [rstrip_eq]
    by_cases he : (rstripWS rest).isEmpty = true
    · rw [if_pos he]
      by_cases hc : pyIsSpace c = true
      · rw [if_pos hc]; rfl
      · rw [if_neg hc]
        simp [hc, onlyPlainSpace]
    · rw [if_neg he]
      unfold onlyPlainSpace
      rw [ih (Bool.and_elim_right h), Bool.and_true]
      exact Bool.and_elim_left h

theorem rstrip_noDouble {l : List Char} (h : noDoubleSpace l = true) :
    noDoubleSpace (rstripWS l) = true := by
  induction l with
  | nil => exact h
  | cons c rest ih =>
    rw [rstrip_eq]
    by_cases he : (rstripWS rest).isEmpty = true
    · rw [if_pos he]
      by_cases hc : pyIsSpace c = true
      · rw [if_pos hc]; rfl
      · rw [if_neg hc]; rfl
    · rw [if_neg he]
      unfold noDoubleSpace
      rw [ih (noDoubleSpace_tail h), Bool.and_true]
      rcases rstrip_head rest with hnil | hhead
      · rw [hnil] at he; simp at he
      · cases hd : (rstripWS rest).head? with
        | none => simp
        | some d =>
          rw [hd] at hhead
          unfold noDoubleSpace at h
          cases rest with
          | nil => simp at hhead
          | cons e rest2 =>
            simp only [List.head?_cons] at hhead
            have hde : d = e := by
              injection hhead.symm with h1; exact h1.symm
            subst hde
            exact Bool.and_elim_left h

theorem rstrip_last (l : List Char) : lastNotSpace (rstripWS l) = true := by
  induction l with
  | nil => rfl
  | cons c rest ih =>
    rw [rstrip_eq]
    by_cases he : (rstripWS rest).isEmpty = true
    · rw [if_pos he]
      by_cases hc : pyIsSpace c = true
      · rw [if_pos hc]; rfl
      · rw [if_neg hc]
        unfold lastNotSpace
        simp [hc]
    · rw [if_neg he]
      unfold lastNotSpace
      cases hr : rstripWS rest with
      | nil => rw [hr] at he; simp at he
      | cons d rest2 =>
        rw [List.getLast?_cons_cons]
        unfold lastNotSpace at ih
        rw [hr] at ih
        exact ih

theorem rstrip_fix : ∀ l : List Char, lastNotSpace l = true → rstripWS l = l
  | [], _ => rfl
  | [c], h => by
    unfold lastNotSpace at h
    simp only [List.getLast?_singleton] at h
    rw [rstrip_eq]
    simp only [List.isEmpty_nil, if_true, rstripWS]
    rw [if_neg (by simpa using h)]
  | c :: d :: rest, h => by
    have h' : lastNotSpace (d :: rest) = true := by
      unfold lastNotSpace at h ⊢
      rwa [List.getLast?_cons_cons] at h
    have ih := rstrip_fix (d :: rest) h'
    rw [rstrip_eq, ih]
    simp

theorem collapse_fix (l : List Char) (h1 : onlyPlainSpace l = true)
    (h2 : noDoubleSpace l = true) :
    collapseAux false l = l ∧
    (headNotSpace l = true → collapseAux true l = l) := by
  induction l with
  | nil => exact ⟨rfl, fun _ => rfl⟩
  | cons c rest ih =>
    unfold onlyPlainSpace at h1
    have h1r := Bool.and_elim_right h1
    have h1c := Bool.and_elim_left h1
    have h2r := noDoubleSpace_tail h2
    have ihr := ih h1r h2r
    by_cases hc : pyIsSpace c = true
    · have hcsp : c = ' ' := by
        rw [hc] at h1c
        simpa using h1c
      have hrest_head : headNotSpace rest = true := by
        unfold noDoubleSpace at h2
        have hpair := Bool.and_elim_left h2
        unfold headNotSpace
        cases hd : rest.head? with
        | none => rfl
        | some d =>
          rw [hd] at hpair
          rw [hc] at hpair
          simpa using hpair
      have htrue : collapseAux true rest = rest := ihr.2 hrest_head
      constructor
      · show (if pyIsSpace c then ' ' :: collapseAux true rest
          else c :: collapseAux false rest) = c :: rest
        rw [if_pos hc, htrue, hcsp]
      · intro habs
        unfold headNotSpace at habs
        simp only [List.head?_cons] at habs
        rw [hc] at habs
        simp at habs
    · constructor
      · show (if pyIsSpace c then ' ' :: collapseAux true rest
          else c :: collapseAux false rest) = c :: rest
        rw [if_neg hc, ihr.1]
      · intro _
        show (if pyIsSpace c then collapseAux true rest
          else c :: collapseAux false rest) = c :: rest
        rw [if_neg hc, ihr.1]

theorem wsNormalize_props (l : List Char) :
    onlyPlainSpace (wsNormalize l) = true ∧
    noDoubleSpace (wsNormalize l) = true ∧
    headNotSpace (wsNormalize l) = true ∧
    lastNotSpace (wsNormalize l) = true := by
  unfold wsNormalize stripWS
  refine ⟨?_, ?_, ?_, rstrip_last _⟩
  · exact rstrip_onlyPlain (onlyPlain_dropWhile (collapse_only_plain l false))
  · exact rstrip_noDouble (noDouble_dropWhile ((collapse_noDouble l).2))
  · rcases rstrip_head ((collapseWS l).dropWhile pyIsSpace) with hnil | hhead
    · rw [hnil]; rfl
    · unfold headNotSpace
      rw [hhead]
      have := dropWhile_headNotSpace (collapseWS l)
      unfold headNotSpace at this
      exact this

theorem wsNormalize_fix (l : List Char) (h1 : onlyPlainSpace l = true)
    (h2 : noDoubleSpace l = true) (h3 : headNotSpace l = true)
    (h4 : lastNotSpace l = true) : wsNormalize l = l := by
  unfold wsNormalize stripWS collapseWS
  rw [(collapse_fix l h1 h2).1, dropWhile_fix h3, rstrip_fix l h4]

theorem wsNormalize_idem (l : List Char) :
    wsNormalize (wsNormalize l) = wsNormalize l := by
  obtain ⟨p1, p2, p3, p4⟩ := wsNormalize_props l
  exact wsNormalize_fix _ p1 p2 p3 p4

theorem normalize_title_data (s : String) :
    (normalize_title s).data = wsNormalize (unescape s.data) := rfl

/-- A string without an ampersand is a fixed point of entity decoding: every
character entity reference, in the model as in the stdlib function, starts
with `&`. -/
theorem unescapeAux_of_no_amp :
    ∀ (fuel : Nat) (l : List Char), '&' ∉ l → unescapeAux fuel l = l
  | 0, _, _ => rfl
  | _ + 1, [], _ => rfl
  | fuel + 1, c :: rest, h => by
    have hc : ¬ c = '&' := fun he => h (he ▸ List.mem_cons_self c rest)
    have hrest : '&' ∉ rest := fun hm => h (List.mem_cons_of_mem c hm)
    show (if c = '&' then _ else c :: unescapeAux fuel rest) = c :: rest
    rw [if_neg hc, unescapeAux_of_no_amp fuel rest hrest]

theorem unescape_of_no_amp {l : List Char} (h : '&' ∉ l) : unescape l = l :=
  unescapeAux_of_no_amp l.length l h

/-- A normalized title whose entity decoding is trivial is a fixed point of
`normalize_title`. -/
theorem normalize_title_fix (raw : String)
    (h : unescape (normalize_title raw).data = (normalize_title raw).data) :
    normalize_title (normalize_title raw) = normalize_title raw := by
  have hd : (normalize_title (normalize_title raw)).data
      = (normalize_title raw).data := by
    rw [normalize_title_data (normalize_title raw), h, normalize_title_data raw,
      wsNormalize_idem]
  cases hnt : normalize_title (normalize_title raw) with
  | mk d1 =>
    cases hnt2 : normalize_title raw with
    | mk d2 =>
      rw [hnt, hnt2] at hd
      simp only [] at hd
      exact congrArg String.mk hd

theorem dedupeFilter_cons (seen : List String) (raw : String) (rest : List String) :
    dedupeFilter seen (raw :: rest) =
      if normalize_title raw = "" then dedupeFilter seen rest
      else if !signedSearch (normalize_title raw) then dedupeFilter seen rest
      else if seen.contains (casefold (normalize_title raw)) then
        dedupeFilter seen rest
      else normalize_title raw ::
        dedupeFilter (casefold (normalize_title raw) :: seen) rest := rfl

theorem mem_dedupeFilter (l : List String) :
    ∀ (seen : List String) (t : String), t ∈ dedupeFilter seen l →
      ∃ raw ∈ l, t = normalize_title raw ∧ ¬ t = "" ∧ signedSearch t = true := by
  induction l with
  | nil => intro seen t h; exact absurd h (List.not_mem_nil t)
  | cons raw rest ih =>
    intro seen t h
    rw [dedupeFilter_cons] at h
    by_cases h1 : normalize_title raw = ""
    · rw [if_pos h1] at h
      obtain ⟨r, hr, hp⟩ := ih seen t h
      exact ⟨r, List.mem_cons_of_mem _ hr, hp⟩
    · rw [if_neg h1] at h
      by_cases h2 : signedSearch (normalize_title raw) = true
      · rw [if_neg (by simp [h2])] at h
        by_cases h3 : seen.contains (casefold (normalize_title raw)) = true
        · rw [if_pos h3] at h
          obtain ⟨r, hr, hp⟩ := ih seen t h
          exact ⟨r, List.mem_cons_of_mem _ hr, hp⟩
        · rw [if_neg h3] at h
          rcases List.mem_cons.mp h with heq | htail
          · exact ⟨raw, List.mem_cons_self _ _,
              heq, by rw [heq]; exact h1, by rw [heq]; exact h2⟩
          · obtain ⟨r, hr, hp⟩ := ih _ t htail
            exact ⟨r, List.mem_cons_of_mem _ hr, hp⟩
      · rw [if_pos (by simp [h2])] at h
        obtain ⟨r, hr, hp⟩ := ih seen t h
        exact ⟨r, List.mem_cons_of_mem _ hr, hp⟩

theorem dedupe_keys (l : List String) :
    ∀ seen : List String,
      (∀ t ∈ dedupeFilter seen l, seen.contains (casefold t) = false) ∧
      List.Pairwise (fun a b => casefold a ≠ casefold b) (dedupeFilter seen l) := by
  induction l with
  | nil =>
    intro seen
    exact ⟨fun t h => absurd h (List.not_mem_nil t), List.Pairwise.nil⟩
  | cons raw rest ih =>
    intro seen
    by_cases h1 : normalize_title raw = ""
    · rw [dedupeFilter_cons, if_pos h1]; exact ih seen
    · by_cases h2 : signedSearch (normalize_title raw) = true
      · by_cases h3 : seen.contains (casefold (normalize_title raw)) = true
        · rw [dedupeFilter_cons, if_neg h1, if_neg (by simp [h2]), if_pos h3]
          exact ih seen
        · rw [dedupeFilter_cons, if_neg h1, if_neg (by simp [h2]), if_neg h3]
          have ihs := ih (casefold (normalize_title raw) :: seen)
          constructor
          · intro t ht
            rcases List.mem_cons.mp ht with rfl | htail
            · exact Bool.eq_false_iff.mpr h3
            · have hc := ihs.1 t htail
              rw [List.contains_cons] at hc
              exact (Bool.or_eq_false_iff.mp hc).2
          · apply List.Pairwise.cons
            · intro u hu
              have hc := ihs.1 u hu
              rw [List.contains_cons] at hc
              have hbeq := (Bool.or_eq_false_iff.mp hc).1
              intro heq
              rw [heq] at hbeq
              simp at hbeq
            · exact ihs.2
      · rw [dedupeFilter_cons, if_neg h1, if_pos (by simp [h2])]
        exact ih seen

theorem dedupe_fix (l : List String) :
    ∀ seen : List String,
      (∀ t ∈ l, normalize_title t = t ∧ ¬ t = "" ∧ signedSearch t = true ∧
        seen.contains (casefold t) = false) →
      List.Pairwise (fun a b => casefold a ≠ casefold b) l →
      dedupeFilter seen l = l := by
  induction l with
  | nil => intro seen _ _; rfl
  | cons t rest ih =>
    intro seen hall hpw
    obtain ⟨hnt, hne, hss, hct⟩ := hall t (List.mem_cons_self _ _)
    rw [dedupeFilter_cons, hnt, if_neg hne, if_neg (by simp [hss]),
      if_neg (by rw [hct]; simp)]
    congr 1
    apply ih
    · intro u hu
      obtain ⟨g1, g2, g3, g4⟩ := hall u (List.mem_cons_of_mem _ hu)
      refine ⟨g1, g2, g3, ?_⟩
      have hne2 : casefold u ≠ casefold t :=
        fun heq => ((List.pairwise_cons.mp hpw).1 u hu) heq.symm
      rw [List.contains_cons, g4, Bool.or_false]
      exact beq_eq_false_iff_ne.mpr hne2
    · exact (List.pairwise_cons.mp hpw).2

/-- Claim C1 counterexample: entity decoding makes the pipeline
non-idempotent.  The candidate `"Elantris &amp;amp;"` normalizes to
`"Elantris &amp;"`, which a second pass decodes further to `"Elantris &"`. -/
theorem filterPipeline_not_idempotent :
    filterPipeline (filterPipeline ["Elantris &amp;amp;"]) ≠
      filterPipeline ["Elantris &amp;amp;"] := by decide

/-- Claim C1 (amended): the normalize-filter-dedupe-sort pipeline applied to
its own output yields the same output, provided no output title contains an
ampersand — so none holds a character entity reference left for the second
entity-decoding pass (without such a proviso the claim fails, since decoding
is rerun on already-decoded text). -/
theorem filterPipeline_idempotent (l : List String)
    (h : ∀ t ∈ filterPipeline l, '&' ∉ t.data) :
    filterPipeline (filterPipeline l) = filterPipeline l := by
  have hmem : ∀ t ∈ filterPipeline l, t ∈ dedupeFilter [] l := by
    intro t ht
    exact (List.mem_insertionSort titleLe).mp ht
  have hfix : ∀ t ∈ filterPipeline l,
      normalize_title t = t ∧ ¬ t = "" ∧ signedSearch t = true ∧
      ([] : List String).contains (casefold t) = false := by
    intro t ht
    obtain ⟨raw, _, hteq, hne, hss⟩ := mem_dedupeFilter l [] t (hmem t ht)
    subst hteq
    refine ⟨normalize_title_fix raw (unescape_of_no_amp (h _ ht)), hne, hss, rfl⟩
  have hperm : (filterPipeline l).Perm (dedupeFilter [] l) :=
    List.perm_insertionSort _ _
  have hpw : List.Pairwise (fun a b => casefold a ≠ casefold b)
      (filterPipeline l) := by
    refine (List.Perm.pairwise_iff ?_ hperm).mpr (dedupe_keys l []).2
    exact fun hxy => fun heq => hxy heq.symm
  have hded : dedupeFilter [] (filterPipeline l) = filterPipeline l :=
    dedupe_fix _ _ hfix hpw
  have hsorted : List.Sorted titleLe (filterPipeline l) :=
    List.sorted_insertionSort titleLe _
  show sortTitles (dedupeFilter [] (filterPipeline l)) = filterPipeline l
  rw [hded]
  exact hsorted.insertionSort_eq

theorem filterPipeline_idempotent_witness :
    (∀ t ∈ filterPipeline ["zzz Elantris", "Elantris B", "ELANTRIS b"],
      '&' ∉ t.data) ∧
    filterPipeline (filterPipeline ["zzz Elantris", "Elantris B", "ELANTRIS b"]) =
      filterPipeline ["zzz Elantris", "Elantris B", "ELANTRIS b"] :=
  ⟨by decide, filterPipeline_idempotent _ (by decide)⟩

theorem firstSeen_nil : firstSeen [] = [] := by simp [firstSeen]

theorem firstSeen_cons (t : String) (rest : List String) :
    firstSeen (t :: rest) =
      t :: firstSeen (rest.filter (fun u => !(casefold u == casefold t))) := by
  simp [firstSeen]

/-- The filter/dedupe loop is exactly a first-seen dedupe of the filtered
normalized candidates (those whose key is not already in `seen`). -/
theorem dedupe_as_firstSeen (l : List String) :
    ∀ seen : List String,
      dedupeFilter seen l =
        firstSeen ((candNorms l).filter (fun t => !seen.contains (casefold t))) := by
  induction l with
  | nil =>
    intro seen
    show dedupeFilter seen [] = firstSeen []
    rw [firstSeen_nil]
    rfl
  | cons raw rest ih =>
    intro seen
    have hcn : candNorms (raw :: rest) =
        if (!(normalize_title raw == "") && signedSearch (normalize_title raw))
        then normalize_title raw :: candNorms rest
        else candNorms rest := by
      unfold candNorms
      rw [List.map_cons, List.filter_cons]
    by_cases h1 : normalize_title raw = ""
    · have hp : (!(normalize_title raw == "") &&
          signedSearch (normalize_title raw)) = false := by
        simp [h1]
      rw [dedupeFilter_cons, if_pos h1, hcn, if_neg (by simp [hp])]
      exact ih seen
    · by_cases h2 : signedSearch (normalize_title raw) = true
      · have hp : (!(normalize_title raw == "") &&
            signedSearch (normalize_title raw)) = true := by
          simp [h1, h2]
        rw [dedupeFilter_cons, if_neg h1, if_neg (by simp [h2]), hcn, if_pos hp,
          List.filter_cons]
        by_cases h3 : seen.contains (casefold (normalize_title raw)) = true
        · rw [if_pos h3, if_neg (by rw [h3]; simp)]
          exact ih seen
        · rw [if_neg h3, if_pos (by rw [Bool.eq_false_iff.mpr h3]; simp),
            firstSeen_cons]
          rw [ih (casefold (normalize_title raw) :: seen)]
          congr 1
          rw [List.filter_filter]
          congr 1
          apply List.filter_congr
          intro u _
          rw [List.contains_cons, Bool.not_or]
      · have hp : (!(normalize_title raw == "") &&
            signedSearch (normalize_title raw)) = false := by
          simp [Bool.eq_false_iff.mpr h2]
        rw [dedupeFilter_cons, if_neg h1, if_pos (by simp [Bool.eq_false_iff.mpr h2]),
          hcn, if_neg (by simp [hp])]
        exact ih seen

/-- Claim C3: every extracted title is non-empty and contains the signed-item
keyword as a whole word case-insensitively; titles are pairwise distinct
under case-folding; the list is sorted case-insensitively; and it is, up to
that sort, exactly the first-seen representative of each key among the
filtered normalized candidates (first-seen casing canonical). -/
theorem extract_titles_invariants (html : String) :
    (∀ t ∈ extract_titles html, ¬ t = "" ∧ signedSearch t = true) ∧
    List.Pairwise (fun a b => casefold a ≠ casefold b) (extract_titles html) ∧
    List.Sorted titleLe (extract_titles html) ∧
    (extract_titles html).Perm (firstSeen (candNorms (parseTitles html))) := by
  refine ⟨?_, ?_, List.sorted_insertionSort titleLe _, ?_⟩
  · intro t ht
    obtain ⟨raw, _, hteq, hne, hss⟩ :=
      mem_dedupeFilter _ [] t ((List.mem_insertionSort titleLe).mp ht)
    exact ⟨hne, hss⟩
  · exact (List.Perm.pairwise_iff (fun hxy heq => hxy heq.symm)
      (List.perm_insertionSort _ _)).mpr (dedupe_keys _ []).2
  · have h1 : extract_titles html =
        sortTitles (dedupeFilter [] (parseTitles html)) := rfl
    have h2 : (candNorms (parseTitles html)).filter
        (fun t => !(([] : List String).contains (casefold t))) =
        candNorms (parseTitles html) := by
      apply List.filter_eq_self.mpr
      intro a _
      rfl
    rw [h1, dedupe_as_firstSeen (parseTitles html) [], h2]
    exact List.perm_insertionSort _ _

theorem extract_titles_invariants_witness :
    ¬ "Elantris Signed" = "" ∧ signedSearch "Elantris Signed" = true :=
  (extract_titles_invariants
    "<a href=\"/products/x\" title=\"Elantris Signed\">").1
    "Elantris Signed" (by decide)
